import Mathlib

/-!
Verification of the Indicator & Backtest Engine of `src/ml-svc/app.py`.

The Python code computes with IEEE floats; the embedding models the same
arithmetic exactly over `ℚ`.  Window sizes and indices are `ℕ`.  Two
quantities appearing only inside the Sharpe ratio are irrational over `ℚ`
(the population standard deviation `statistics.pstdev` and `math.sqrt 252`);
they are taken as parameters (`pst`, `s252`) of the definitions that use
them, and every theorem below holds for all instantiations, in particular
for the real values.
-/

/-- Embedding of the `_sma` loop: state `s` is the running sum, `q` the
window buffer; per element the value is appended, the oldest element is
popped once the buffer exceeds `n`, and `s/len(q)` is emitted. -/
def smaGo (n : ℕ) (s : ℚ) (q : List ℚ) : List ℚ → List ℚ
  | [] => []
  | v :: rest =>
      if n < (q ++ [v]).length then
        (s + v - (q ++ [v]).headI) / (((q ++ [v]).tail).length : ℚ) ::
          smaGo n (s + v - (q ++ [v]).headI) ((q ++ [v]).tail) rest
      else
        (s + v) / (((q ++ [v]).length : ℚ)) :: smaGo n (s + v) (q ++ [v]) rest

/-- `_sma(arr, n)` from `src/ml-svc/app.py`: rolling mean with a growing
window until `n` points are available, then a fixed window of size `n`. -/
def _sma (arr : List ℚ) (n : ℕ) : List ℚ := smaGo n 0 [] arr

/-- The gain appended per point of `_rsi`: 0 for the first point, else
`max(0.0, ch)` for the change `ch` from the previous price. -/
def gainOf (prev : Option ℚ) (v : ℚ) : ℚ :=
  match prev with
  | none => 0
  | some p => max 0 (v - p)

/-- The loss appended per point of `_rsi`: 0 for the first point, else
`max(0.0, -ch)` for the change `ch` from the previous price. -/
def lossOf (prev : Option ℚ) (v : ℚ) : ℚ :=
  match prev with
  | none => 0
  | some p => max 0 (p - v)

/-- Embedding of the `_rsi` loop: `gains`/`losses` accumulate the clipped
changes, `prev` is the previous price (`none` before the first point). -/
def rsiGo (n : ℕ) (gains losses : List ℚ) (prev : Option ℚ) : List ℚ → List ℚ
  | [] => []
  | v :: rest =>
      let g := gainOf prev v
      let l := lossOf prev v
      let r :=
        if (gains ++ [g]).length < n then (50 : ℚ)
        else
          let ag := (((gains ++ [g]).drop ((gains ++ [g]).length - n)).sum) / (n : ℚ)
          let al := (((losses ++ [l]).drop ((losses ++ [l]).length - n)).sum) / (n : ℚ)
          let rs := if al = 0 then 0 else ag / al
          100 - 100 / (1 + rs)
      r :: rsiGo n (gains ++ [g]) (losses ++ [l]) (some v) rest

/-- `_rsi(arr, n)` from `src/ml-svc/app.py`: emits the neutral 50.0 while
fewer than `n` changes were observed, then `100 - 100/(1+rs)` with
`rs = meanGain/meanLoss` (0 when the mean loss is 0). -/
def _rsi (arr : List ℚ) (n : ℕ) : List ℚ := rsiGo n [] [] none arr

example : _sma [1, 2, 3] 2 = [1, 3/2, 5/2] := by norm_num [_sma, smaGo]
example : _rsi [1, 1, 1] 2 = [50, 0, 0] := by norm_num [_rsi, rsiGo, gainOf, lossOf]
example : _rsi [1, 2] 14 = [50, 50] := by norm_num [_rsi, rsiGo, gainOf, lossOf]

/-- `{"sharpe": ..., "maxdd": ...}` of `_backtest_ma_crossover` and of the
momentum branch of `backtest`. -/
structure Metrics where
  sharpe : ℚ
  maxdd : ℚ
  deriving DecidableEq, Repr

/-- The per-bar simple returns of an equity curve:
`[equity[i]/equity[i-1] - 1 for i in range(1, len(equity))]`. -/
def returnsOf (equity : List ℚ) : List ℚ :=
  List.zipWith (fun a b => b / a - 1) equity equity.tail

/-- The Sharpe computation
`(mean(returns) / (pstdev(returns) or 1e-9)) * sqrt(252) if returns else 0.0`.
`pst` stands for `statistics.pstdev` and `s252` for `math.sqrt(252)`;
both are irrational over ℚ and are taken as parameters. -/
def sharpeOf (pst : List ℚ → ℚ) (s252 : ℚ) (rets : List ℚ) : ℚ :=
  if rets = [] then 0
  else rets.sum / (rets.length : ℚ) /
    (if pst rets = 0 then 1 / 1000000000 else pst rets) * s252

/-- The max-drawdown loop:
`for v in equity: peak = max(peak, v); dd = (v/peak) - 1.0; maxdd = min(maxdd, dd)`. -/
def maxddGo (peak m : ℚ) : List ℚ → ℚ
  | [] => m
  | v :: rest => maxddGo (max peak v) (min m (v / max peak v - 1)) rest

/-- Max drawdown of an equity curve starting from initial peak `peak0`
(the source uses `equity[0]` in `_backtest_ma_crossover` and the literal
`1.0` in the momentum branch of `backtest`) and initial `maxdd = 0.0`. -/
def maxddOf (peak0 : ℚ) (equity : List ℚ) : ℚ := maxddGo peak0 0 equity

/-- The equity-building loop shared by both strategies: starting from
equity `e` and previous close `prev`, each step reads the pair of the
current close and the position signal of the bar, computes
`r = (close[i] - close[i-1]) / (close[i-1] or 1)` and appends
`equity[-1] * (1 + pos * r)`. -/
def equityFrom (e prev : ℚ) : List (ℚ × Bool) → List ℚ
  | [] => []
  | (c, b) :: rest =>
      e * (1 + (if b then 1 else 0) * ((c - prev) / (if prev = 0 then 1 else prev))) ::
        equityFrom
          (e * (1 + (if b then 1 else 0) * ((c - prev) / (if prev = 0 then 1 else prev))))
          c rest

/-- Equity curve of `_backtest_ma_crossover`: `equity = [1.0]`, then for
`i in range(1, len(closes))` the position is LONG iff
`fasts[i] >= slows[i]`. -/
def maEquity (closes : List ℚ) (fast slow : ℕ) : List ℚ :=
  match closes with
  | [] => [1]
  | c0 :: ctail =>
      1 :: equityFrom 1 c0 (ctail.zip
        (List.zipWith (fun f s => decide (s ≤ f))
          (_sma closes fast) (_sma closes slow)).tail)

/-- The momentum list of the `momentum` branch of `backtest`:
`[(closes[i]-closes[i-20])/(closes[i-20] or 1) if i>=20 else 0 for i in range(len(closes))]`. -/
def momList (closes : List ℚ) : List ℚ :=
  (List.range closes.length).map fun i =>
    if 20 ≤ i then
      (closes.getD i 0 - closes.getD (i - 20) 0) /
        (if closes.getD (i - 20) 0 = 0 then 1 else closes.getD (i - 20) 0)
    else 0

/-- Equity curve of the `momentum` branch of `backtest`: position is LONG
at bar `i` iff `mom[i] > 0`. -/
def momEquity (closes : List ℚ) : List ℚ :=
  match closes with
  | [] => [1]
  | c0 :: ctail =>
      1 :: equityFrom 1 c0 (ctail.zip
        ((momList closes).map (fun m => decide (0 < m))).tail)

/-- `_backtest_ma_crossover(closes, fast, slow)`: the equity curve and its
metrics, with `peak` initialized to `equity[0]`. -/
def _backtest_ma_crossover (pst : List ℚ → ℚ) (s252 : ℚ)
    (closes : List ℚ) (fast slow : ℕ) : List ℚ × Metrics :=
  (maEquity closes fast slow,
   ⟨sharpeOf pst s252 (returnsOf (maEquity closes fast slow)),
    maxddOf (maEquity closes fast slow).headI (maEquity closes fast slow)⟩)

/-- `BacktestConfig`: the strategy name and the `params` mapping.  Window
parameters are natural numbers (the source converts JSON values with
`int(...)`; negative windows make the Python loops fault and are outside
every documented behavior). -/
structure BacktestConfig where
  strategy : String
  params : List (String × ℕ)
  deriving DecidableEq

/-- `params.get(key, dflt)` on the embedded mapping. -/
def getParam (params : List (String × ℕ)) (key : String) (dflt : ℕ) : ℕ :=
  match params.lookup key with
  | some v => v
  | none => dflt

/-- The strategy dispatch of the `backtest` endpoint, after the closes have
been fetched: the `momentum` branch computes its own equity and metrics
(with `peak` initialized to the literal `1.0`); every other strategy string
falls through to `_backtest_ma_crossover` with
`fast = params.get("fast", 20)` and `slow = params.get("slow", 50)`. -/
def backtestCore (pst : List ℚ → ℚ) (s252 : ℚ)
    (cfg : BacktestConfig) (closes : List ℚ) : List ℚ × Metrics :=
  if cfg.strategy = "momentum" then
    (momEquity closes,
     ⟨sharpeOf pst s252 (returnsOf (momEquity closes)),
      maxddOf 1 (momEquity closes)⟩)
  else
    _backtest_ma_crossover pst s252 closes
      (getParam cfg.params "fast" 20) (getParam cfg.params "slow" 50)

/-- The computational core of the `predict` endpoint on a non-empty history:
`s20 = _sma(closes,20)[-1]`, `s50 = _sma(closes,50)[-1]`,
`direction = 1 if s20 >= s50 else -1`,
`pred = closes[-1] * (1 + 0.002 * direction * max(1, min(5, horizon)))`,
`conf = 0.55 if direction == 1 else 0.45`.  Returns `(pred, conf)`. -/
def predictCore (closes : List ℚ) (horizon : ℤ) : ℚ × ℚ :=
  let s20 := (_sma closes 20).getLastD 0
  let s50 := (_sma closes 50).getLastD 0
  let direction : ℤ := if s50 ≤ s20 then 1 else -1
  (closes.getLastD 0 *
     (1 + 2 / 1000 * (direction : ℚ) * ((max 1 (min 5 horizon) : ℤ) : ℚ)),
   if direction = 1 then 11 / 20 else 9 / 20)

/-- One walk-forward fold `{"fold": i+1, "start": start, "end": end,
"metrics": met}`.  The source key `end` is renamed `stop` here because
`end` is a Lean keyword. -/
structure Fold where
  fold : ℕ
  start : ℕ
  stop : ℕ
  metrics : Metrics
  deriving DecidableEq

/-- The computational core of the `walkforward` endpoint on a fetched
series: short series short-circuit, fold partition with
`fold_size = max(50, n // k)`, folds shorter than `slow + 5` skipped,
each retained fold backtested with `_backtest_ma_crossover`, and the
averages of the metrics of the retained folds.  Returns
`(folds, avg_sharpe, avg_maxdd)`. -/
def walkforwardCore (pst : List ℚ → ℚ) (s252 : ℚ)
    (k fast slow : ℕ) (closes : List ℚ) : List Fold × ℚ × ℚ :=
  if closes.length < slow + 50 then ([], 0, 0)
  else
    let n := closes.length
    let fs := max 50 (n / k)
    let results := (List.range k).filterMap fun i =>
      if min n ((i + 1) * fs) - i * fs < slow + 5 then none
      else
        some ⟨i + 1, i * fs, min n ((i + 1) * fs),
          (_backtest_ma_crossover pst s252
            ((closes.drop (i * fs)).take (min n ((i + 1) * fs) - i * fs))
            fast slow).2⟩
    if results = [] then ([], 0, 0)
    else (results,
      (results.map (fun r => r.metrics.sharpe)).sum / (results.length : ℚ),
      (results.map (fun r => r.metrics.maxdd)).sum / (results.length : ℚ))

example : maEquity [-2, -1] 1 1 = [1, 1/2] := by
  norm_num [maEquity, _sma, smaGo, equityFrom]
example : momEquity [1, 2] = [1, 1] := by
  norm_num [momEquity, momList, equityFrom, List.range_succ]
example : predictCore [2] 3 = (2012/1000, 11/20) := by
  norm_num [predictCore, _sma, smaGo]

theorem smaGo_length (n : ℕ) (l : List ℚ) :
    ∀ (s : ℚ) (q : List ℚ), (smaGo n s q l).length = l.length := by
  induction l with
  | nil => intro s q; rfl
  | cons v rest ih =>
      intro s q
      simp only [smaGo]
      split <;> simp [ih]

theorem length_sma (arr : List ℚ) (n : ℕ) : (_sma arr n).length = arr.length :=
  smaGo_length n arr 0 []

theorem equityFrom_length (l : List (ℚ × Bool)) :
    ∀ e prev, (equityFrom e prev l).length = l.length := by
  induction l with
  | nil => intro e prev; rfl
  | cons p rest ih =>
      intro e prev
      obtain ⟨c, b⟩ := p
      simp [equityFrom, ih]

theorem maEquity_eq_cons (closes : List ℚ) (fast slow : ℕ) :
    ∃ t, maEquity closes fast slow = 1 :: t := by
  cases closes <;> exact ⟨_, rfl⟩

theorem momEquity_eq_cons (closes : List ℚ) :
    ∃ t, momEquity closes = 1 :: t := by
  cases closes <;> exact ⟨_, rfl⟩

theorem maEquity_length (closes : List ℚ) (fast slow : ℕ) (h : closes ≠ []) :
    (maEquity closes fast slow).length = closes.length := by
  match closes with
  | c0 :: ctail =>
      simp [maEquity, equityFrom_length, List.length_zip, List.length_tail,
        List.length_zipWith, length_sma]

theorem momEquity_length (closes : List ℚ) (h : closes ≠ []) :
    (momEquity closes).length = closes.length := by
  match closes with
  | c0 :: ctail =>
      simp [momEquity, equityFrom_length, List.length_zip, List.length_tail,
        List.length_map, List.length_range, momList]

theorem maxddGo_le (l : List ℚ) : ∀ peak m, maxddGo peak m l ≤ m := by
  induction l with
  | nil => intro peak m; simp [maxddGo]
  | cons v rest ih =>
      intro peak m
      simp only [maxddGo]
      exact le_trans (ih _ _) (min_le_left _ _)

theorem maxddGo_eq_zero_iff (l : List ℚ) : ∀ peak : ℚ, 0 < peak →
    (maxddGo peak 0 l = 0 ↔ List.Chain (· ≤ ·) peak l) := by
  induction l with
  | nil => intro peak _; simp [maxddGo]
  | cons v rest ih =>
      intro peak hpeak
      simp only [maxddGo, List.chain_cons]
      by_cases hv : peak ≤ v
      · have hv0 : (0 : ℚ) < v := lt_of_lt_of_le hpeak hv
        rw [max_eq_right hv, div_self (ne_of_gt hv0), sub_self, min_self,
          ih v hv0]
        simp [hv]
      · have hvlt : v < peak := lt_of_not_le hv
        have hlt : v / peak - 1 < 0 := by
          rw [sub_neg]
          exact (div_lt_one hpeak).mpr hvlt
        rw [max_eq_left (le_of_lt hvlt), min_eq_right (le_of_lt hlt)]
        constructor
        · intro h0
          exfalso
          have hle := maxddGo_le rest peak (v / peak - 1)
          rw [h0] at hle
          linarith
        · rintro ⟨h1, -⟩
          exact absurd h1 hv

theorem maxddOf_head_one (rest : List ℚ) :
    maxddOf 1 (1 :: rest) ≤ 0 ∧
      (maxddOf 1 (1 :: rest) = 0 ↔ List.Chain' (· ≤ ·) (1 :: rest)) := by
  have hch : List.Chain' (· ≤ ·) (1 :: rest) ↔ List.Chain (· ≤ ·) (1 : ℚ) rest :=
    Iff.rfl
  refine ⟨maxddGo_le _ _ _, ?_⟩
  rw [maxddOf, maxddGo_eq_zero_iff (1 :: rest) 1 one_pos, List.chain_cons, hch]
  simp

/-- Claim C4: for every non-empty price series, both strategies of the
Backtest Engine (`ma_crossover` and `momentum`) produce an equity curve
whose length equals the length of the price series and whose first element
is exactly 1.0. -/
theorem backtest_equity_shape (pst : List ℚ → ℚ) (s252 : ℚ)
    (params : List (String × ℕ)) (closes : List ℚ) (h : closes ≠ []) :
    ((backtestCore pst s252 ⟨"ma_crossover", params⟩ closes).1.length = closes.length ∧
      (backtestCore pst s252 ⟨"ma_crossover", params⟩ closes).1.headI = 1) ∧
    ((backtestCore pst s252 ⟨"momentum", params⟩ closes).1.length = closes.length ∧
      (backtestCore pst s252 ⟨"momentum", params⟩ closes).1.headI = 1) := by
  obtain ⟨t1, h1⟩ := maEquity_eq_cons closes (getParam params "fast" 20)
    (getParam params "slow" 50)
  obtain ⟨t2, h2⟩ := momEquity_eq_cons closes
  refine ⟨⟨?_, ?_⟩, ?_, ?_⟩
  · simp [backtestCore, _backtest_ma_crossover,
      maEquity_length closes (getParam params "fast" 20) (getParam params "slow" 50) h]
  · simp [backtestCore, _backtest_ma_crossover, h1]
  · simp [backtestCore, momEquity_length closes h]
  · simp [backtestCore, h2]

/-- Witness for C4 at a concrete input. -/
theorem backtest_equity_shape_witness :
    ((backtestCore (fun _ => 0) 0 ⟨"ma_crossover", []⟩ [1]).1.length = [(1:ℚ)].length ∧
      (backtestCore (fun _ => 0) 0 ⟨"ma_crossover", []⟩ [1]).1.headI = 1) ∧
    ((backtestCore (fun _ => 0) 0 ⟨"momentum", []⟩ [1]).1.length = [(1:ℚ)].length ∧
      (backtestCore (fun _ => 0) 0 ⟨"momentum", []⟩ [1]).1.headI = 1) :=
  backtest_equity_shape (fun _ => 0) 0 [] [1] (by simp)

/-- Claim C5: for every non-empty price series and either strategy, the
computed `maxdd` metric is always ≤ 0, and `maxdd` equals 0 if and only if
the equity curve is non-decreasing. -/
theorem backtest_maxdd_spec (pst : List ℚ → ℚ) (s252 : ℚ)
    (params : List (String × ℕ)) (closes : List ℚ) (h : closes ≠ []) :
    ((backtestCore pst s252 ⟨"ma_crossover", params⟩ closes).2.maxdd ≤ 0 ∧
      ((backtestCore pst s252 ⟨"ma_crossover", params⟩ closes).2.maxdd = 0 ↔
        List.Chain' (· ≤ ·) (backtestCore pst s252 ⟨"ma_crossover", params⟩ closes).1)) ∧
    ((backtestCore pst s252 ⟨"momentum", params⟩ closes).2.maxdd ≤ 0 ∧
      ((backtestCore pst s252 ⟨"momentum", params⟩ closes).2.maxdd = 0 ↔
        List.Chain' (· ≤ ·) (backtestCore pst s252 ⟨"momentum", params⟩ closes).1)) := by
  obtain ⟨t1, h1⟩ := maEquity_eq_cons closes (getParam params "fast" 20)
    (getParam params "slow" 50)
  obtain ⟨t2, h2⟩ := momEquity_eq_cons closes
  have hm1 := maxddOf_head_one t1
  have hm2 := maxddOf_head_one t2
  refine ⟨⟨?_, ?_⟩, ?_, ?_⟩
  · simpa [backtestCore, _backtest_ma_crossover, h1] using hm1.1
  · simpa [backtestCore, _backtest_ma_crossover, h1] using hm1.2
  · simpa [backtestCore, h2] using hm2.1
  · simpa [backtestCore, h2] using hm2.2

/-- Witness for C5 at a concrete input. -/
theorem backtest_maxdd_spec_witness :
    ((backtestCore (fun _ => 0) 0 ⟨"ma_crossover", []⟩ [1]).2.maxdd ≤ 0 ∧
      ((backtestCore (fun _ => 0) 0 ⟨"ma_crossover", []⟩ [1]).2.maxdd = 0 ↔
        List.Chain' (· ≤ ·) (backtestCore (fun _ => 0) 0 ⟨"ma_crossover", []⟩ [1]).1)) ∧
    ((backtestCore (fun _ => 0) 0 ⟨"momentum", []⟩ [1]).2.maxdd ≤ 0 ∧
      ((backtestCore (fun _ => 0) 0 ⟨"momentum", []⟩ [1]).2.maxdd = 0 ↔
        List.Chain' (· ≤ ·) (backtestCore (fun _ => 0) 0 ⟨"momentum", []⟩ [1]).1)) :=
  backtest_maxdd_spec (fun _ => 0) 0 [] [1] (by simp)

/-- Claim C9: when the strategy is `momentum`, the backtest result (equity
curve and metrics) is independent of the `params` mapping — the fast/slow
parameters are read only in the `ma_crossover` branch. -/
theorem backtest_momentum_params_independent (pst : List ℚ → ℚ) (s252 : ℚ)
    (p1 p2 : List (String × ℕ)) (closes : List ℚ) :
    backtestCore pst s252 ⟨"momentum", p1⟩ closes =
      backtestCore pst s252 ⟨"momentum", p2⟩ closes := by
  simp [backtestCore]

/-- Claim C8: for every price series with fewer than `slow + 50` points,
the Walk-Forward Evaluator returns an empty fold list together with
average Sharpe 0.0 and average maxdd 0.0 (and no error is possible: the
function is total). -/
theorem walkforward_short_series (pst : List ℚ → ℚ) (s252 : ℚ)
    (k fast slow : ℕ) (closes : List ℚ) (h : closes.length < slow + 50) :
    walkforwardCore pst s252 k fast slow closes = ([], 0, 0) := by
  rw [walkforwardCore, if_pos h]

/-- Witness for C8 at a concrete input. -/
theorem walkforward_short_series_witness :
    walkforwardCore (fun _ => 0) 0 5 20 50 [1] = ([], 0, 0) :=
  walkforward_short_series (fun _ => 0) 0 5 20 50 [1] (by norm_num)

/-- Claim C7: on a non-empty history the Direction Heuristic returns
predicted price `lastClose * (1 + 0.002 * direction * h)` with `h` the
horizon clamped to `[1, 5]` and `direction` `+1` iff the latest SMA(20) is
at least the latest SMA(50) (`-1` otherwise), and the confidence is the
constant 0.55 for direction `+1` and 0.45 for direction `-1`. -/
theorem predict_spec (closes : List ℚ) (horizon : ℤ) (h : closes ≠ []) :
    predictCore closes horizon =
      (closes.getLast h *
         (1 + (0.002 : ℚ) *
           (if (_sma closes 50).getLastD 0 ≤ (_sma closes 20).getLastD 0
            then (1 : ℚ) else -1) *
           ((max 1 (min 5 horizon) : ℤ) : ℚ)),
       if (_sma closes 50).getLastD 0 ≤ (_sma closes 20).getLastD 0
       then (0.55 : ℚ) else (0.45 : ℚ)) := by
  obtain ⟨a, l, rfl⟩ : ∃ a l, closes = a :: l := by
    cases closes with
    | nil => exact absurd rfl h
    | cons a l => exact ⟨a, l, rfl⟩
  have hlast : (a :: l).getLastD 0 = (a :: l).getLast h := by
    rw [List.getLast_eq_getLastD, List.getLastD_cons]
  rw [predictCore]
  by_cases hc : (_sma (a :: l) 50).getLastD 0 ≤ (_sma (a :: l) 20).getLastD 0 <;>
    simp only [hc, if_true, if_false, ite_true, ite_false, hlast] <;>
    norm_num

/-- Witness for C7 at a concrete input. -/
theorem predict_spec_witness :
    predictCore [2] 3 =
      ([(2 : ℚ)].getLast (by norm_num) *
         (1 + (0.002 : ℚ) *
           (if (_sma [2] 50).getLastD 0 ≤ (_sma [2] 20).getLastD 0
            then (1 : ℚ) else -1) *
           ((max 1 (min 5 (3 : ℤ)) : ℤ) : ℚ)),
       if (_sma [2] 50).getLastD 0 ≤ (_sma [2] 20).getLastD 0
       then (0.55 : ℚ) else (0.45 : ℚ)) :=
  predict_spec [2] 3 (by norm_num)

theorem rsi_formula_bounds (ag al : ℚ) (hag : 0 ≤ ag) (hal : 0 ≤ al) :
    0 ≤ 100 - 100 / (1 + (if al = 0 then 0 else ag / al)) ∧
      100 - 100 / (1 + (if al = 0 then 0 else ag / al)) ≤ 100 := by
  have hrs : 0 ≤ (if al = 0 then 0 else ag / al) := by
    by_cases h : al = 0
    · simp [h]
    · rw [if_neg h]
      exact div_nonneg hag hal
  set rs := (if al = 0 then 0 else ag / al) with hrsdef
  have h1 : (0:ℚ) < 1 + rs := by linarith
  have h2 : 100 / (1 + rs) ≤ 100 := div_le_self (by norm_num) (by linarith)
  have h3 : 0 < 100 / (1 + rs) := div_pos (by norm_num) h1
  constructor <;> linarith

theorem rsiGo_bounds (n : ℕ) (l : List ℚ) :
    ∀ (gains losses : List ℚ) (prev : Option ℚ),
      (∀ x ∈ gains, 0 ≤ x) → (∀ x ∈ losses, 0 ≤ x) →
      ∀ y ∈ rsiGo n gains losses prev l, 0 ≤ y ∧ y ≤ 100 := by
  induction l with
  | nil => intro gains losses prev _ _ y hy; simp [rsiGo] at hy
  | cons v rest ih =>
      intro gains losses prev hg hl y hy
      simp only [rsiGo] at hy
      have hg' : ∀ x ∈ gains ++ [gainOf prev v], (0:ℚ) ≤ x := by
        intro x hx
        rcases List.mem_append.mp hx with hx | hx
        · exact hg x hx
        · rw [List.mem_singleton.mp hx]
          cases prev <;> simp [gainOf]
      have hl' : ∀ x ∈ losses ++ [lossOf prev v], (0:ℚ) ≤ x := by
        intro x hx
        rcases List.mem_append.mp hx with hx | hx
        · exact hl x hx
        · rw [List.mem_singleton.mp hx]
          cases prev <;> simp [lossOf]
      rcases List.mem_cons.mp hy with rfl | hy
      · split
        · norm_num
        · apply rsi_formula_bounds
          · exact div_nonneg
              (List.sum_nonneg fun x hx => hg' x (List.mem_of_mem_drop hx))
              (Nat.cast_nonneg n)
          · exact div_nonneg
              (List.sum_nonneg fun x hx => hl' x (List.mem_of_mem_drop hx))
              (Nat.cast_nonneg n)
      · exact ih _ _ _ hg' hl' y hy

/-- Claim C2: for every non-empty finite input series and every window
`n ≥ 1`, every element of the indicator series returned by `_rsi` lies in
the closed interval `[0, 100]`. -/
theorem rsi_bounded (arr : List ℚ) (n : ℕ) (h : arr ≠ []) (hn : 1 ≤ n) :
    ∀ y ∈ _rsi arr n, 0 ≤ y ∧ y ≤ 100 := fun y hy =>
  rsiGo_bounds n arr [] [] none (by simp) (by simp) y hy

/-- Witness for C2 at a concrete input. -/
theorem rsi_bounded_witness : 0 ≤ (50 : ℚ) ∧ (50 : ℚ) ≤ 100 :=
  rsi_bounded [1, 2] 14 (by simp) (by norm_num) 50 (by norm_num [_rsi, rsiGo, gainOf, lossOf])

theorem rsiGo_const (n : ℕ) (c : ℚ) :
    ∀ (m j : ℕ),
      rsiGo n (List.replicate j 0) (List.replicate j 0) (some c) (List.replicate m c) =
        (List.range m).map (fun i => if j + i + 1 < n then (50 : ℚ) else 0) := by
  intro m
  induction m with
  | zero => intro j; simp [rsiGo]
  | succ m ih =>
      intro j
      rw [List.replicate_succ, List.range_succ_eq_map, List.map_cons, List.map_map]
      simp only [rsiGo, gainOf, lossOf, sub_self, max_self]
      simp only [← List.replicate_succ']
      rw [ih (j + 1)]
      simp only [List.cons.injEq]
      refine ⟨?_, ?_⟩
      · simp only [List.length_replicate, zero_add]
        split
        · rfl
        · norm_num [List.drop_replicate, List.sum_replicate]
      · apply List.map_congr_left
        intro i hi
        simp only [Function.comp]
        exact if_congr (by omega) rfl rfl

/-- Counterexample to claim C1 as stated: on the constant series of
fourteen 1.0 prices with window 14 the RSI series is not 50.0 at every
index (the full-window indices evaluate to 0.0, because a zero mean loss
makes `rs = 0` and `100 - 100/(1+0) = 0`). -/
theorem rsi_const_counterexample :
    ¬ ∀ y ∈ _rsi [1, 1, 1, 1, 1, 1, 1, 1, 1, 1, 1, 1, 1, 1] 14, y = 50 := by
  intro hall
  have h0 : (0 : ℚ) ∈ _rsi [1, 1, 1, 1, 1, 1, 1, 1, 1, 1, 1, 1, 1, 1] 14 := by
    norm_num [_rsi, rsiGo, gainOf, lossOf]
  have h50 := hall 0 h0
  norm_num at h50

/-- Claim C1 (amended): for every constant price series of value `c`
(c ≠ 0) and any length, the RSI series produced by `_rsi` with window
`n ≥ 1` is 50.0 at every warm-up index (`i + 1 < n`) and 0.0 at every
full-window index — not 50.0 everywhere: with the documented policy
`rs = 0` when the mean loss is exactly 0, the full-window value is
`100 - 100/(1+0) = 0`. -/
theorem rsi_const_series (c : ℚ) (m n : ℕ) (hc : c ≠ 0) (hn : 1 ≤ n) :
    _rsi (List.replicate m c) n =
      (List.range m).map (fun i => if i + 1 < n then (50 : ℚ) else 0) := by
  cases m with
  | zero => simp [_rsi, rsiGo]
  | succ m =>
      rw [_rsi, List.replicate_succ, List.range_succ_eq_map, List.map_cons,
        List.map_map]
      simp only [rsiGo, gainOf, lossOf, List.nil_append]
      rw [show [(0:ℚ)] = List.replicate 1 0 from rfl, rsiGo_const n c m 1]
      simp only [List.cons.injEq]
      refine ⟨?_, ?_⟩
      · simp only [List.length_replicate, zero_add]
        split
        · rfl
        · have hn1 : n = 1 := by omega
          subst hn1
          norm_num [List.drop_replicate, List.sum_replicate]
      · apply List.map_congr_left
        intro i hi
        simp only [Function.comp]
        exact if_congr (by omega) rfl rfl

/-- Witness for the amended C1 at a concrete input. -/
theorem rsi_const_series_witness :
    _rsi (List.replicate 3 (2:ℚ)) 2 =
      (List.range 3).map (fun i => if i + 1 < 2 then (50 : ℚ) else 0) :=
  rsi_const_series 2 3 2 (by norm_num) (by norm_num)

/-- Claim C10: in the Walk-Forward Evaluator with `n` data points, `k`
folds and `foldSize = max(50, n / k)`, the span
`[start, stop)` of every retained fold lies within `[0, k * foldSize)`; hence the final
`n - k * foldSize` bars (when `n > k * foldSize`) belong to no fold. -/
theorem walkforward_fold_span (pst : List ℚ → ℚ) (s252 : ℚ)
    (k fast slow : ℕ) (closes : List ℚ) (hk : 1 ≤ k) (p : ℕ × ℕ)
    (hp : p ∈ (walkforwardCore pst s252 k fast slow closes).1.map
      (fun f => (f.start, f.stop))) :
    p.2 ≤ k * max 50 (closes.length / k) ∧
      ∀ j, k * max 50 (closes.length / k) ≤ j → ¬ (p.1 ≤ j ∧ j < p.2) := by
  simp only [walkforwardCore] at hp
  split at hp
  · simp at hp
  · split at hp
    · simp at hp
    · rcases List.mem_map.mp hp with ⟨f, hf, rfl⟩
      rcases List.mem_filterMap.mp hf with ⟨i, hi, hsome⟩
      split at hsome
      · exact absurd hsome (by simp)
      · injection hsome with hfeq
        subst hfeq
        have hik : i + 1 ≤ k := List.mem_range.mp hi
        have hstop : min closes.length ((i + 1) * max 50 (closes.length / k)) ≤
            k * max 50 (closes.length / k) :=
          le_trans (min_le_right _ _) (Nat.mul_le_mul_right _ hik)
        refine ⟨hstop, ?_⟩
        intro j hj hcontra
        exact absurd (lt_of_lt_of_le (lt_of_lt_of_le hcontra.2 hstop) hj)
          (lt_irrefl j)

/-- Witness for C10 at a concrete input. -/
theorem walkforward_fold_span_witness :
    ((0:ℕ), (50:ℕ)).2 ≤ 1 * max 50 ((List.replicate 50 (1:ℚ)).length / 1) :=
  (walkforward_fold_span (fun _ => 0) 0 1 1 0 (List.replicate 50 1) (by norm_num)
    (0, 50)
    (by
      simp only [walkforwardCore, List.length_replicate]
      norm_num [List.range_succ, List.filterMap_cons])).1

theorem equityFrom_chain (l : List (ℚ × Bool)) :
    ∀ (e prev : ℚ), 0 < e → 0 ≤ prev →
      List.Chain (· < ·) prev (l.map Prod.fst) →
      List.Chain' (· ≤ ·) (e :: equityFrom e prev l) := by
  induction l with
  | nil => intro e prev _ _ _; simp [equityFrom]
  | cons p rest ih =>
      obtain ⟨c, b⟩ := p
      intro e prev he hprev hch
      rw [List.map_cons, List.chain_cons] at hch
      obtain ⟨hlt, hch'⟩ := hch
      have hr : 0 < (c - prev) / (if prev = 0 then 1 else prev) := by
        by_cases h0 : prev = 0
        · rw [if_pos h0, h0]
          rw [h0] at hlt
          simpa using hlt
        · rw [if_neg h0]
          have hp : 0 < prev := lt_of_le_of_ne hprev (Ne.symm h0)
          exact div_pos (sub_pos.mpr hlt) hp
      have hfac : (1:ℚ) ≤ 1 + (if b then 1 else 0) *
          ((c - prev) / (if prev = 0 then 1 else prev)) := by
        cases b
        · simp
        · simp only [if_true]
          nlinarith
      have he' : 0 < e * (1 + (if b then 1 else 0) *
          ((c - prev) / (if prev = 0 then 1 else prev))) :=
        mul_pos he (by linarith)
      have hee : e ≤ e * (1 + (if b then 1 else 0) *
          ((c - prev) / (if prev = 0 then 1 else prev))) :=
        le_mul_of_one_le_right (le_of_lt he) hfac
      have hc0 : 0 ≤ c := le_of_lt (lt_of_le_of_lt hprev hlt)
      have htail := ih _ c he' hc0 hch'
      rw [equityFrom]
      exact List.chain'_cons.mpr ⟨hee, htail⟩

/-- Counterexample to claim C6 as stated: the price series `[-2, -1]` is
strictly increasing, yet with `fast = slow = 1` the `ma_crossover` equity
curve is `[1, 1/2]`, which is not non-decreasing (the per-bar return is
computed by dividing by the negative previous close). -/
theorem ma_crossover_monotone_counterexample :
    ¬ List.Chain' (· ≤ ·) (maEquity [-2, -1] 1 1) := by
  have hval : maEquity [-2, -1] 1 1 = [1, 1/2] := by
    norm_num [maEquity, _sma, smaGo, equityFrom]
  rw [hval]
  norm_num [List.chain'_cons]

/-- Claim C6 (amended): for every strictly increasing price series of
nonnegative prices, the equity curve produced by `_backtest_ma_crossover`
(for any fast/slow windows ≥ 1) is monotonically non-decreasing.  The
nonnegativity restriction is forced: a strictly increasing series with a
negative previous close yields a negative per-bar return while LONG. -/
theorem ma_crossover_monotone (closes : List ℚ) (fast slow : ℕ)
    (hincr : List.Chain' (· < ·) closes) (hpos : ∀ x ∈ closes, 0 ≤ x)
    (hf : 1 ≤ fast) (hs : 1 ≤ slow) :
    List.Chain' (· ≤ ·) (maEquity closes fast slow) := by
  cases closes with
  | nil => simp [maEquity]
  | cons c0 ctail =>
      rw [maEquity]
      apply equityFrom_chain _ 1 c0 one_pos (hpos c0 (List.mem_cons_self _ _))
      have hsig : ((List.zipWith (fun f s => decide (s ≤ f))
          (_sma (c0 :: ctail) fast) (_sma (c0 :: ctail) slow)).tail).length =
          ctail.length := by
        simp [List.length_tail, List.length_zipWith, length_sma]
      rw [List.map_fst_zip ctail _ (le_of_eq hsig.symm)]
      exact hincr

/-- Witness for the amended C6 at a concrete input. -/
theorem ma_crossover_monotone_witness :
    List.Chain' (· ≤ ·) (maEquity [1, 2] 1 1) :=
  ma_crossover_monotone [1, 2] 1 1 (by norm_num [List.chain'_cons])
    (by norm_num) (by norm_num) (by norm_num)

theorem smaGo_spec (n : ℕ) (l : List ℚ) :
    ∀ q : List ℚ, q.length ≤ n →
      smaGo n q.sum q l = (List.range l.length).map (fun i =>
        ((q ++ l.take (i + 1)).drop (q.length + (i + 1) - n)).sum /
          ((((q ++ l.take (i + 1)).drop (q.length + (i + 1) - n)).length : ℕ) : ℚ)) := by
  induction l with
  | nil => intro q hq; simp [smaGo]
  | cons v rest ih =>
      intro q hq
      simp only [List.length_cons, List.range_succ_eq_map, List.map_cons, List.map_map]
      simp only [smaGo]
      by_cases hcase : n < (q ++ [v]).length
      · rw [if_pos hcase]
        obtain ⟨a, t, hqv⟩ : ∃ a t, q ++ [v] = a :: t := by
          cases hqe : q ++ [v] with
          | nil => simp at hqe
          | cons a t => exact ⟨a, t, rfl⟩
        have hql : q.length = n := by
          have hl := hcase
          simp at hl
          omega
        have hlent : t.length = n := by
          have h1 := congrArg List.length hqv
          simp at h1
          omega
        have hsum_eq : q.sum + v = a + t.sum := by
          have h2 := congrArg List.sum hqv
          simpa using h2
        rw [hqv]
        simp only [List.headI_cons, List.tail_cons]
        rw [show q.sum + v - a = t.sum from by linarith]
        rw [ih t (le_of_eq hlent)]
        simp only [List.cons.injEq]
        constructor
        · have hQ0 : q ++ (v :: rest).take (0 + 1) = a :: t := by
            simpa using hqv
          rw [hQ0, show q.length + (0 + 1) - n = 1 from by omega, List.drop_one,
            List.tail_cons]
        · apply List.map_congr_left
          intro i hi
          simp only [Function.comp_apply, Nat.succ_eq_add_one]
          have hQ : q ++ (v :: rest).take (i + 1 + 1) = a :: (t ++ rest.take (i + 1)) := by
            rw [List.take_succ_cons,
              show q ++ (v :: rest.take (i + 1)) = (q ++ [v]) ++ rest.take (i + 1) from by
                simp,
              hqv]
            rfl
          rw [hQ, show q.length + (i + 1 + 1) - n = (i + 1) + 1 from by omega,
            List.drop_succ_cons, show t.length + (i + 1) - n = i + 1 from by omega]
      · rw [if_neg hcase]
        have hlen : (q ++ [v]).length ≤ n := by
          simp at hcase ⊢
          omega
        rw [show q.sum + v = (q ++ [v]).sum from by simp]
        rw [ih (q ++ [v]) hlen]
        simp only [List.cons.injEq]
        constructor
        · rw [show q ++ (v :: rest).take (0 + 1) = q ++ [v] from by simp,
            show q.length + (0 + 1) - n = 0 from by
              simp at hcase
              omega,
            List.drop_zero]
        · apply List.map_congr_left
          intro i hi
          simp only [Function.comp_apply, Nat.succ_eq_add_one]
          rw [show q ++ (v :: rest).take (i + 1 + 1) = (q ++ [v]) ++ rest.take (i + 1) from by
              simp [List.take_succ_cons],
            show q.length + (i + 1 + 1) - n = (q ++ [v]).length + (i + 1) - n from by
              simp
              omega]

/-- Claim C3: for every input series and every window `n ≥ 1`, `_sma`
returns a series of the same length as its input whose value at index `i`
is the arithmetic mean of the last `min(i+1, n)` input points (growing
window until full, then fixed-size rolling window). -/
theorem sma_spec (arr : List ℚ) (n : ℕ) (hn : 1 ≤ n) :
    (_sma arr n).length = arr.length ∧
      ∀ i, i < arr.length →
        ((arr.take (i + 1)).drop (i + 1 - n)).length = min (i + 1) n ∧
        (_sma arr n).getD i 0 =
          ((arr.take (i + 1)).drop (i + 1 - n)).sum /
            ((((arr.take (i + 1)).drop (i + 1 - n)).length : ℕ) : ℚ) := by
  have hspec := smaGo_spec n arr [] (by simp)
  simp only [List.nil_append, List.length_nil, List.sum_nil, zero_add] at hspec
  constructor
  · exact length_sma arr n
  · intro i hi
    constructor
    · simp only [List.length_drop, List.length_take]
      omega
    · rw [show _sma arr n = smaGo n 0 [] arr from rfl, hspec]
      simp [List.getD_eq_getElem?_getD, List.getElem?_map, List.getElem?_range, hi]

/-- Witness for C3 at a concrete input. -/
theorem sma_spec_witness : (_sma [1, 2, 3] 2).length = [(1:ℚ), 2, 3].length :=
  (sma_spec [1, 2, 3] 2 (by norm_num)).1
